import Mathlib

/-!
Verification development for the dbx query-workbench (a Go TUI in db.go).
The definitions below are a shallow embedding of the functions of db.go:
JSON values are an inductive type, Go byte strings are lists of naturals,
machine time instants are integers handed in explicitly, and the pieces of
mutable session state touched by the handlers are a record threaded through
pure transition functions.
-/

namespace Dbx

/-- A JSON value as produced by the Go encoding/json package when decoding
into interface values: null, booleans, numbers, strings, arrays, and
objects.  Objects are association lists of distinct keys (Go stores them in
a map whose iteration order is irrelevant here because every consumer in
db.go sorts the keys before use).  Numbers are restricted to integers,
which covers every numeric literal exercised by the claims. -/
inductive Json where
  | null : Json
  | bool (b : Bool) : Json
  | num (n : Int) : Json
  | str (s : String) : Json
  | arr (elems : List Json) : Json
  | obj (fields : List (String × Json)) : Json

/-- A decoded row of a tabular result: the Go value of type
map[string]interface, modelled as an association list. -/
abbrev RowMap := List (String × Json)

/-! ### Go byte strings and UTF-8 -/

/-- The UTF-8 encoding of one character, as the list of its byte values.
This is the standard UTF-8 scheme, which is what Go string literals and the
Go len and slice operations work on. -/
def charUtf8 (c : Char) : List Nat :=
  let n := c.toNat
  if n < 128 then [n]
  else if n < 2048 then [192 + n / 64, 128 + n % 64]
  else if n < 65536 then [224 + n / 4096, 128 + n / 64 % 64, 128 + n % 64]
  else [240 + n / 262144, 128 + n / 4096 % 64, 128 + n / 64 % 64, 128 + n % 64]

/-- The bytes of a Go string: UTF-8 encoding of its characters. -/
def strBytes (s : String) : List Nat :=
  s.data.foldr (fun c acc => charUtf8 c ++ acc) []

/-- Go len(s): the byte length of a string. -/
def goLen (s : String) : Nat := (strBytes s).length

/-- Bytewise lexicographic comparison of byte lists, the order Go string
comparison uses. -/
def listLeB : List Nat → List Nat → Bool
  | [], _ => true
  | _ :: _, [] => false
  | a :: as, b :: bs => if a < b then true else if b < a then false else listLeB as bs

/-- The Go order on strings: bytewise lexicographic comparison of the
UTF-8 bytes (which agrees with comparison by code points). -/
def goStrLe (a b : String) : Prop := listLeB (strBytes a) (strBytes b) = true

instance : DecidableRel goStrLe := fun a b =>
  inferInstanceAs (Decidable (listLeB (strBytes a) (strBytes b) = true))

/-- The bytes of the ellipsis character appended by truncateString in
db.go (three bytes in UTF-8). -/
def ellipsisBytes : List Nat := strBytes "…"

/-! ### Go whitespace trimming (strings.TrimSpace) -/

/-- The whitespace predicate of Go strings.TrimSpace, restricted to the
Latin-1 part of unicode.IsSpace, which covers every query string the
claims exercise. -/
def goIsSpace (c : Char) : Bool :=
  c.toNat = 32 || c.toNat = 9 || c.toNat = 10 || c.toNat = 11 ||
  c.toNat = 12 || c.toNat = 13 || c.toNat = 133 || c.toNat = 160

/-- Go strings.TrimSpace: drop whitespace from both ends. -/
def goTrimSpace (s : String) : String :=
  String.mk (((s.data.dropWhile goIsSpace).reverse.dropWhile goIsSpace).reverse)

/-! ### A JSON parser modelling encoding/json

fetchQuery in db.go calls json.Unmarshal on the response body.  The parser
below models the JSON grammar that library accepts, restricted to the
fragment the claims evaluate: integer numbers (no floats or exponents) and
the common string escapes.  It is used only to run the concrete bodies the
claims name; the order-of-classification facts are stated over an abstract
parse outcome. -/

/-- JSON structural whitespace. -/
def isJsonWs (c : Char) : Bool :=
  c.toNat = 32 || c.toNat = 9 || c.toNat = 10 || c.toNat = 13

/-- Drop JSON structural whitespace. -/
def skipWs (cs : List Char) : List Char := cs.dropWhile isJsonWs

/-- Decimal digit test. -/
def isDigitChar (c : Char) : Bool := 48 ≤ c.toNat && c.toNat ≤ 57

/-- Parse the body of a JSON string after the opening quote, returning the
decoded characters and the remainder after the closing quote. -/
def parseStrBody : List Char → Option (List Char × List Char)
  | [] => none
  | c :: rest =>
    if c.toNat = 34 then some ([], rest)
    else if c.toNat = 92 then
      match rest with
      | [] => none
      | d :: r2 =>
        let e : Option Char :=
          if d.toNat = 34 || d.toNat = 92 || d.toNat = 47 then some d
          else if d = 'n' then some (Char.ofNat 10)
          else if d = 't' then some (Char.ofNat 9)
          else if d = 'r' then some (Char.ofNat 13)
          else if d = 'b' then some (Char.ofNat 8)
          else if d = 'f' then some (Char.ofNat 12)
          else none
        match e with
        | some ch => (parseStrBody r2).map (fun p => (ch :: p.1, p.2))
        | none => none
    else if c.toNat < 32 then none
    else (parseStrBody rest).map (fun p => (c :: p.1, p.2))

/-- Parse a JSON integer literal (optional minus, digits, no leading
zeros; a following fraction or exponent character is rejected, as floats
are outside the modelled fragment). -/
def parseNumber (cs : List Char) : Option (Json × List Char) :=
  let neg : Bool := match cs with
    | c :: _ => c.toNat == 45
    | [] => false
  let cs1 := if neg then cs.drop 1 else cs
  let ds := cs1.takeWhile isDigitChar
  let rest := cs1.dropWhile isDigitChar
  if ds = [] then none
  else if ds.length > 1 && (match ds with | c :: _ => c.toNat == 48 | [] => false) then none
  else
    match rest with
    | c :: _ => if c.toNat = 46 || c = 'e' || c = 'E' then none else
        some (mkNum neg ds, rest)
    | [] => some (mkNum neg ds, rest)
where
  /-- Build the integer value of a digit run. -/
  mkNum (neg : Bool) (ds : List Char) : Json :=
    let v : Nat := ds.foldl (fun n c => n * 10 + (c.toNat - 48)) 0
    Json.num (if neg then -(v : Int) else (v : Int))

mutual

/-- Parse one JSON value; fuel bounds the nesting recursion. -/
def parseVal : Nat → List Char → Option (Json × List Char)
  | 0, _ => none
  | Nat.succ f, cs =>
    match skipWs cs with
    | [] => none
    | c :: rest =>
      if c.toNat = 123 then
        match skipWs rest with
        | d :: r2 =>
          if d.toNat = 125 then some (Json.obj [], r2)
          else (parseFields f rest).map (fun p => (Json.obj p.1, p.2))
        | [] => none
      else if c.toNat = 91 then
        match skipWs rest with
        | d :: r2 =>
          if d.toNat = 93 then some (Json.arr [], r2)
          else (parseElems f rest).map (fun p => (Json.arr p.1, p.2))
        | [] => none
      else if c.toNat = 34 then
        (parseStrBody rest).map (fun p => (Json.str (String.mk p.1), p.2))
      else if c.toNat = 45 || isDigitChar c then parseNumber (c :: rest)
      else if (c :: rest).take 4 = "null".data then some (Json.null, (c :: rest).drop 4)
      else if (c :: rest).take 4 = "true".data then some (Json.bool true, (c :: rest).drop 4)
      else if (c :: rest).take 5 = "false".data then some (Json.bool false, (c :: rest).drop 5)
      else none

/-- Parse the elements of a non-empty JSON array up to the closing
bracket. -/
def parseElems : Nat → List Char → Option (List Json × List Char)
  | 0, _ => none
  | Nat.succ f, cs =>
    match parseVal f cs with
    | none => none
    | some (j, rest) =>
      match skipWs rest with
      | [] => none
      | c :: r2 =>
        if c.toNat = 44 then
          match parseElems f r2 with
          | some (js, r3) => some (j :: js, r3)
          | none => none
        else if c.toNat = 93 then some ([j], r2)
        else none

/-- Parse the fields of a non-empty JSON object up to the closing
brace. -/
def parseFields : Nat → List Char → Option (List (String × Json) × List Char)
  | 0, _ => none
  | Nat.succ f, cs =>
    match skipWs cs with
    | [] => none
    | c :: rest =>
      if c.toNat = 34 then
        match parseStrBody rest with
        | none => none
        | some (k, r1) =>
          match skipWs r1 with
          | [] => none
          | d :: r3 =>
            if d.toNat = 58 then
              match parseVal f r3 with
              | none => none
              | some (v, r4) =>
                match skipWs r4 with
                | [] => none
                | e :: r6 =>
                  if e.toNat = 44 then
                    match parseFields f r6 with
                    | some (fs, r7) => some ((String.mk k, v) :: fs, r7)
                    | none => none
                  else if e.toNat = 125 then some ([(String.mk k, v)], r6)
                  else none
            else none
      else none

end

/-- json.Unmarshal of a whole body: parse one value and require only
whitespace afterwards; none models a parse error. -/
def parseJson (s : String) : Option Json :=
  match parseVal (2 * s.length + 2) s.data with
  | some (j, rest) => if skipWs rest = [] then some j else none
  | none => none

/-! ### fetchQuery response classification (db.go lines 184 to 209) -/

/-- One JSON array element decoded into a Go map, as the first
json.Unmarshal of fetchQuery does: objects decode to their field map and
null decodes to the nil map; anything else is a type error. -/
def rowOfJson : Json → Option RowMap
  | Json.obj fs => some fs
  | Json.null => some []
  | _ => none

/-- Decode every element of a JSON array into a row, failing if any
element fails. -/
def rowsOfList : List Json → Option (List RowMap)
  | [] => some []
  | j :: js =>
    match rowOfJson j, rowsOfList js with
    | some r, some rs => some (r :: rs)
    | _, _ => none

/-- json.Unmarshal into a Go slice of string-keyed maps: null yields the
nil slice, an array yields its decoded rows, anything else is a type
error. -/
def rowsOfJson : Json → Option (List RowMap)
  | Json.null => some []
  | Json.arr xs => rowsOfList xs
  | _ => none

/-- The typed payload returned by fetchQuery: a row-map list (tabular),
generic JSON, or raw text. -/
inductive Payload where
  | rows (rs : List RowMap) : Payload
  | gen (j : Json) : Payload
  | text (s : String) : Payload

/-- The classification performed by fetchQuery on a successfully read
body: first try to unmarshal into a list of row maps, then into generic
JSON, else fall back to raw text.  The first argument is the outcome of
parsing the body as JSON (none when the body is not valid JSON); the
second is the raw body.  Returns the payload and the kind tag. -/
def classifyBody (parsed : Option Json) (raw : String) : Payload × String :=
  match parsed with
  | some j =>
    match rowsOfJson j with
    | some rs => (Payload.rows rs, "json")
    | none => (Payload.gen j, "json")
  | none => (Payload.text raw, "text")

/-- fetchQuery on a concrete body string: parse with the modelled
encoding/json grammar and classify. -/
def fetchClassify (body : String) : Payload × String :=
  classifyBody (parseJson body) body

/-! ### Go default value formatting (fmt.Sprintf with the v verb)

db.go renders every cell and detail value with the default verb, applied
to values decoded by encoding/json.  On those values the verb prints nil
as the angle-bracketed nil marker, numbers and booleans in their decimal
form, strings verbatim, slices in brackets separated by spaces, and maps
with their keys sorted. -/

/-- Order on rendered object fields: fmt prints map entries sorted by
key. -/
def fieldLe (a b : String × String) : Prop := goStrLe a.1 b.1

instance : DecidableRel fieldLe := fun a b =>
  inferInstanceAs (Decidable (goStrLe a.1 b.1))

mutual

/-- Go fmt default rendering of a decoded JSON value. -/
def stringify : Json → String
  | Json.null => "<nil>"
  | Json.bool b => if b then "true" else "false"
  | Json.num n => toString n
  | Json.str s => s
  | Json.arr xs => "[" ++ String.intercalate " " (stringifyList xs) ++ "]"
  | Json.obj fs =>
      "map[" ++
        String.intercalate " "
          ((List.insertionSort fieldLe (stringifyFields fs)).map
            (fun p => p.1 ++ ":" ++ p.2)) ++ "]"

/-- Render each element of an array. -/
def stringifyList : List Json → List String
  | [] => []
  | x :: xs => stringify x :: stringifyList xs

/-- Render each field value of an object, keeping its key. -/
def stringifyFields : List (String × Json) → List (String × String)
  | [] => []
  | (k, v) :: fs => (k, stringify v) :: stringifyFields fs

end

/-- Go map read from a decoded row: a missing key yields the nil
interface value, which the default verb renders exactly like JSON null,
so it is modelled by null. -/
def goLookup (row : RowMap) (k : String) : Json :=
  match row.find? (fun p => p.1 = k) with
  | some p => p.2
  | none => Json.null

/-- The rendered string of the cell of a row under a column name. -/
def valStr (row : RowMap) (k : String) : String := stringify (goLookup row k)

/-! ### History store (db.go lines 108 to 181 and the delete handler) -/

/-- One stored query with its timestamp.  Instants are abstracted as
integers. -/
structure HistoryEntry where
  query : String
  timestamp : Int
deriving DecidableEq

/-- The history: recent queries, most recent first. -/
structure History where
  entries : List HistoryEntry
deriving DecidableEq

/-- The push branch of appendHistory: put the new entry in front and cut
the list to maxLen when it got longer. -/
def pushEntry (h : History) (q : String) (maxLen : Nat) (now : Int) : History :=
  let es := (⟨q, now⟩ : HistoryEntry) :: h.entries
  if maxLen < es.length then ⟨es.take maxLen⟩ else ⟨es⟩

/-- appendHistory of db.go: trim the query, return unchanged on an empty
result, refresh the timestamp when the list is non-empty and its first
query equals the trimmed one, otherwise push a new entry.  The current
time is passed in explicitly. -/
def appendHistory (h : History) (query : String) (maxLen : Nat) (now : Int) : History :=
  if goTrimSpace query = "" then h
  else if h.entries.head?.map (fun e => e.query) = some (goTrimSpace query) then
    ⟨⟨goTrimSpace query, now⟩ :: h.entries.tail⟩
  else pushEntry h (goTrimSpace query) maxLen now

/-- The delete handler of the history list: remove the entry at a valid
index, keeping the rest in order. -/
def deleteHistory (h : History) (i : Nat) : History :=
  if i < h.entries.length then ⟨h.entries.take i ++ h.entries.drop (i + 1)⟩ else h

/-- Histories reachable from the empty history by append and delete with
a fixed configured maximum. -/
inductive ReachableHist (maxLen : Nat) : History → Prop where
  | empty : ReachableHist maxLen ⟨[]⟩
  | append (q : String) (now : Int) {h : History} :
      ReachableHist maxLen h → ReachableHist maxLen (appendHistory h q maxLen now)
  | del (i : Nat) {h : History} :
      ReachableHist maxLen h → ReachableHist maxLen (deleteHistory h i)

/-- Histories reachable from the empty history by append alone. -/
inductive ReachableAppend (maxLen : Nat) : History → Prop where
  | empty : ReachableAppend maxLen ⟨[]⟩
  | append (q : String) (now : Int) {h : History} :
      ReachableAppend maxLen h → ReachableAppend maxLen (appendHistory h q maxLen now)

/-- The dedupe invariant: no two adjacent entries carry the same query
text. -/
def noConsecDup (l : List HistoryEntry) : Prop :=
  List.Chain' (fun a b => a.query ≠ b.query) l

/-- Fold a batch of append calls over a history, each with its own
timestamp. -/
def appendAll (maxLen : Nat) (ps : List (String × Int)) (h : History) : History :=
  ps.foldl (fun acc p => appendHistory acc p.1 maxLen p.2) h

/-! ### History persistence (db.go lines 130 to 163)

saveHistory marshals the History struct with encoding/json and writes the
file whole; loadHistory reads it back, treating a missing file or a body
that fails to unmarshal as an empty history.  The marshalling of the two
structs is modelled below at the level of JSON values, with instants kept
as integers. -/

/-- JSON object field lookup by key. -/
def jsonLookup (fs : List (String × Json)) (k : String) : Option Json :=
  (fs.find? (fun p => p.1 = k)).map (fun p => p.2)

/-- Marshal one history entry. -/
def entryJson (e : HistoryEntry) : Json :=
  Json.obj [("query", Json.str e.query), ("timestamp", Json.num e.timestamp)]

/-- Marshal the history struct. -/
def marshalHistory (h : History) : Json :=
  Json.obj [("entries", Json.arr (h.entries.map entryJson))]

/-- Unmarshal one history entry, with the lenient Go struct semantics: a
missing or null field keeps the zero value, a field of the wrong type is
an error. -/
def entryOfJson : Json → Option HistoryEntry
  | Json.null => some ⟨"", 0⟩
  | Json.obj fs =>
    let q : Option String :=
      match jsonLookup fs "query" with
      | none => some ""
      | some (Json.str s) => some s
      | some Json.null => some ""
      | some _ => none
    let t : Option Int :=
      match jsonLookup fs "timestamp" with
      | none => some 0
      | some (Json.num n) => some n
      | some Json.null => some 0
      | some _ => none
    match q, t with
    | some qv, some tv => some ⟨qv, tv⟩
    | _, _ => none
  | _ => none

/-- Unmarshal a list of entries elementwise. -/
def entriesOfList : List Json → Option (List HistoryEntry)
  | [] => some []
  | j :: js =>
    match entryOfJson j, entriesOfList js with
    | some e, some es => some (e :: es)
    | _, _ => none

/-- Unmarshal the entries field: null keeps the nil slice. -/
def entriesOfJson : Json → Option (List HistoryEntry)
  | Json.null => some []
  | Json.arr xs => entriesOfList xs
  | _ => none

/-- Unmarshal the history struct. -/
def unmarshalHistory : Json → Option History
  | Json.null => some ⟨[]⟩
  | Json.obj fs =>
    match jsonLookup fs "entries" with
    | none => some ⟨[]⟩
    | some v => (entriesOfJson v).map (fun es => ⟨es⟩)
  | _ => none

/-- The state of the history file: absent, unreadable, or present with
its contents (none stands for bytes that are not valid JSON). -/
inductive FileState where
  | missing : FileState
  | unreadable : FileState
  | content (c : Option Json) : FileState

/-- loadHistory of db.go: a missing file and any unmarshal failure give
the empty history; only a read error is surfaced. -/
def loadHistoryM : FileState → Except String History
  | FileState.missing => Except.ok ⟨[]⟩
  | FileState.unreadable => Except.error "read error"
  | FileState.content none => Except.ok ⟨[]⟩
  | FileState.content (some j) =>
    Except.ok (match unmarshalHistory j with
      | some h => h
      | none => ⟨[]⟩)

/-- saveHistory of db.go: the file afterwards holds the marshalled
history. -/
def saveHistoryM (h : History) : FileState :=
  FileState.content (some (marshalHistory h))

/-! ### truncateString (db.go lines 212 to 217)

Go len and slicing act on bytes, so the function is modelled on byte
lists.  maxLen is a Go int; the slice of the second branch is out of
range when maxLen is not positive, which is modelled by none. -/

/-- truncateString of db.go on the bytes of the string: unchanged when it
fits, otherwise the leading maxLen minus one bytes followed by the
three-byte ellipsis; none models the slice-bound panic. -/
def truncateStringB (s : List Nat) (maxLen : Int) : Option (List Nat) :=
  if (s.length : Int) ≤ maxLen then some s
  else if 1 ≤ maxLen then some (s.take (maxLen - 1).toNat ++ ellipsisBytes)
  else none

/-! ### Table rendering (db.go lines 220 to 275) -/

/-- The application configuration struct of db.go.  The Go fields are
ints; they are modelled as naturals, which covers the defaults and every
configuration the claims exercise. -/
structure Config where
  scrollAcceleration : Nat
  scrollRepeatThreshold : Nat
  scrollRepeatTimeoutMs : Nat
  pageScrollStep : Nat
  maxHistoryEntries : Nat
  connectionCheckSec : Nat
  maxColumnWidth : Nat

/-- DefaultConfig of db.go. -/
def DefaultConfig : Config := ⟨3, 3, 150, 10, 200, 5, 40⟩

/-- Sort a list of strings (sort.Strings of Go, which orders bytewise
lexicographically). -/
def sortStrings (l : List String) : List String := List.insertionSort goStrLe l

/-- The column sequence of a rendered table: the keys of the first row,
sorted alphabetically; empty data leaves no columns. -/
def colsOf : List RowMap → List String
  | [] => []
  | r :: _ => sortStrings (r.map (fun p => p.1))

/-- The display width of one column in db.go: start from the header
length raised to the minimum of eight, widen over the first five rows,
and cap at the configured maximum. -/
def colWidth (maxCol : Nat) (data : List RowMap) (k : String) : Nat :=
  min maxCol
    ((data.take 5).foldl (fun w row => max w (goLen (valStr row k))) (max 8 (goLen k)))

/-- The bytes of one rendered data cell: values wider than the column are
passed through truncateString. -/
def renderCell (w : Nat) (s : String) : List Nat :=
  if w < goLen s then (truncateStringB (strBytes s) (w : Int)).getD [] else strBytes s

/-- renderJSONToTable of db.go: clear the table and stop on empty data,
otherwise emit the header row and one row of cells per data row, and
publish the column sequence.  Returns the table cells (as bytes) and the
new value of the columns slice, which is only overwritten when data is
non-empty. -/
def renderJSONToTable (cfg : Config) (data : List RowMap) (oldCols : List String) :
    List (List (List Nat)) × List String :=
  match data with
  | [] => ([], oldCols)
  | _ :: _ =>
    let cols := colsOf data
    ((cols.map strBytes) ::
      data.map (fun row =>
        cols.map (fun k => renderCell (colWidth cfg.maxColumnWidth data k) (valStr row k))),
     cols)

/-! ### Detail projection (db.go lines 621 to 649) -/

/-- The in-line truncation of one detail value in updateDetailView: keep
the first two hundred bytes and add the ellipsis when longer. -/
def detailValBytes (s : String) : List Nat :=
  if 200 < goLen s then (strBytes s).take 200 ++ ellipsisBytes else strBytes s

/-- The detail projection of one row: every key of the row in sorted
order with its independently truncated rendered value. -/
def detailLines (row : RowMap) : List (String × List Nat) :=
  (sortStrings (row.map (fun p => p.1))).map
    (fun k => (k, detailValBytes (valStr row k)))

/-- What the detail pane shows. -/
inductive DetailView where
  | message (s : String) : DetailView
  | rowDetail (idx total : Nat) (lines : List (String × List Nat)) : DetailView

/-- updateDetailView of db.go as a function of the current data and the
selected table row: row zero is the header and anything beyond the data
is out of range. -/
def updateDetailViewS (data : List RowMap) (selRow : Nat) : DetailView :=
  if selRow = 0 ∨ data.length < selRow then DetailView.message "[yellow]No row selected"
  else DetailView.rowDetail selRow data.length (detailLines (data.getD (selRow - 1) []))

/-! ### Session state and handlers (db.go lines 614 to 782) -/

/-- The mutable session state of db.go that the claims touch: the data
and columns behind the results table, the sort state, the selection, the
rendered table, and the texts of the detail, raw, and status areas. -/
structure Session where
  currentData : List RowMap
  currentColumns : List String
  sortColumn : Int
  sortAscending : Bool
  selRow : Nat
  selCol : Nat
  rowCount : Nat
  table : List (List (List Nat))
  detail : DetailView
  rawText : String
  statusMsg : String

/-- Ascending row order of the sort handler: bytewise comparison of the
rendered cell values under the sorted column. -/
def rowLe (c : String) (a b : RowMap) : Prop := goStrLe (valStr a c) (valStr b c)

instance (c : String) : DecidableRel (rowLe c) := fun a b =>
  inferInstanceAs (Decidable (goStrLe (valStr a c) (valStr b c)))

/-- Descending row order of the sort handler. -/
def rowGe (c : String) (a b : RowMap) : Prop := goStrLe (valStr b c) (valStr a c)

instance (c : String) : DecidableRel (rowGe c) := fun a b =>
  inferInstanceAs (Decidable (goStrLe (valStr b c) (valStr a c)))

/-- The sort.Slice call of the sort handler: produce a permutation of the
rows ordered on the rendered cell strings, ascending or descending. -/
def sortRowsBy (asc : Bool) (c : String) (data : List RowMap) : List RowMap :=
  if asc then List.insertionSort (rowLe c) data else List.insertionSort (rowGe c) data

/-- The state produced by the guarded body of the sort handler: toggle or
set the sort state, sort the rows, re-render the table, and move the
selection to the first data row. -/
def activatedState (cfg : Config) (st : Session) (col : Nat) : Session :=
  let colName := st.currentColumns.getD col ""
  let asc := if st.sortColumn = (col : Int) then ! st.sortAscending else true
  let sorted := sortRowsBy asc colName st.currentData
  let rendered := renderJSONToTable cfg sorted st.currentColumns
  { st with
    sortColumn := (col : Int)
    sortAscending := asc
    currentData := sorted
    currentColumns := rendered.2
    table := rendered.1
    selRow := 1
    selCol := 0
    detail := updateDetailViewS sorted 1 }

/-- The SetSelectedFunc handler of the results table: selecting the
header cell of a valid column runs the sort body above; any other
selection leaves the state alone. -/
def activateHeader (cfg : Config) (st : Session) (row col : Nat) : Session :=
  if row = 0 ∧ 0 < st.currentData.length ∧ col < st.currentColumns.length then
    activatedState cfg st col
  else st

/-- The synchronous half of runQuery: reset the sort state, append the
query to the history, clear the table, and zero the row count; the fetch
itself happens asynchronously and lands through applyFetch. -/
def runQueryStart (cfg : Config) (st : Session) (hist : History) (query : String)
    (now : Int) : Session × History :=
  ({ st with
      statusMsg := "[yellow]Running query..."
      sortColumn := -1
      sortAscending := true
      rowCount := 0
      table := [] },
   appendHistory hist query cfg.maxHistoryEntries now)

/-- A generic JSON array element converted by the type switch of the
result-apply closure: only objects survive (a null element fails the map
type assertion there, unlike in the first unmarshal of fetchQuery). -/
def rowOfJsonObj : Json → Option RowMap
  | Json.obj fs => some fs
  | _ => none

/-- The result-apply closure queued by runQuery for a successfully read
response: show the raw body, then install the payload according to its
shape. -/
def applyFetch (cfg : Config) (st : Session) (p : Payload) (kind : String)
    (raw : String) : Session :=
  let st := { st with rawText := raw }
  if kind = "json" then
    match p with
    | Payload.rows rs =>
      let rendered := renderJSONToTable cfg rs st.currentColumns
      let base := { st with
        currentData := rs
        currentColumns := rendered.2
        table := rendered.1
        rowCount := rs.length }
      if 0 < rs.length then
        { base with
          selRow := 1
          selCol := 0
          detail := updateDetailViewS rs 1
          statusMsg := "[green]Fetched " ++ toString rs.length ++ " rows" }
      else
        { base with
          detail := DetailView.message "[yellow]No results"
          statusMsg := "[green]Fetched " ++ toString rs.length ++ " rows" }
    | Payload.gen (Json.arr xs) =>
      let maps := xs.filterMap rowOfJsonObj
      if 0 < maps.length then
        let rendered := renderJSONToTable cfg maps st.currentColumns
        { st with
          currentData := maps
          currentColumns := rendered.2
          table := rendered.1
          rowCount := maps.length
          selRow := 1
          selCol := 0
          detail := updateDetailViewS maps 1
          statusMsg := "[green]Fetched " ++ toString maps.length ++ " rows" }
      else
        { st with
          table := []
          currentData := []
          rowCount := 0
          detail := DetailView.message "[yellow]JSON result (non-tabular)"
          statusMsg := "[green]JSON result (non-tabular)" }
    | Payload.gen _ =>
      { st with
        table := []
        currentData := []
        rowCount := 0
        detail := DetailView.message "[yellow]JSON result (see raw output)"
        statusMsg := "[green]JSON result" }
    | Payload.text _ =>
      { st with
        table := []
        currentData := []
        rowCount := 0
        detail := DetailView.message "[yellow]JSON result (see raw output)"
        statusMsg := "[green]JSON result" }
  else
    { st with
      table := []
      currentData := []
      rowCount := 0
      detail := DetailView.message "[yellow]Text result (see raw output)"
      statusMsg := "[green]Text result" }

/-- A run of identical non-ASCII characters (Greek alpha, two bytes in
UTF-8), used to exercise the byte-versus-character distinction on
concrete inputs. -/
def alphaRun (n : Nat) : String := String.mk (List.replicate n (Char.ofNat 945))

/-- What the specification words of the width claim describe for a
truncated cell: the leading width minus one characters of the value
followed by the ellipsis. -/
def specCharCell (w : Nat) (s : String) : List Nat :=
  strBytes (String.mk (s.data.take (w - 1))) ++ ellipsisBytes

/-- What the specification words of the detail claim describe for a
value: truncation at two hundred characters. -/
def specCharDetail (s : String) : List Nat :=
  if 200 < s.data.length then strBytes (String.mk (s.data.take 200)) ++ ellipsisBytes
  else strBytes s

/-- A blank session state, used to instantiate the session theorems on
concrete inputs. -/
def sampleSession : Session :=
  { currentData := []
    currentColumns := []
    sortColumn := -1
    sortAscending := true
    selRow := 0
    selCol := 0
    rowCount := 0
    table := []
    detail := DetailView.message ""
    rawText := ""
    statusMsg := "" }

/-- A small concrete result set, used to instantiate the sort theorems on
concrete inputs. -/
def sampleTable : Session :=
  { sampleSession with
      currentData := [[("id", Json.str "9")], [("id", Json.str "10")]]
      currentColumns := ["id"] }

/-! ## Helper lemmas -/

/-- Bytewise comparison is total. -/
theorem listLeB_total : ∀ (a b : List Nat), listLeB a b = true ∨ listLeB b a = true
  | [], _ => Or.inl rfl
  | _ :: _, [] => Or.inr rfl
  | x :: as, y :: bs => by
    simp only [listLeB]
    rcases Nat.lt_trichotomy x y with h | rfl | h
    · left; simp [h]
    · rw [if_neg (by omega), if_neg (by omega), if_neg (by omega), if_neg (by omega)]
      exact listLeB_total as bs
    · right; simp [h]

/-- Bytewise comparison is transitive. -/
theorem listLeB_trans : ∀ (a b c : List Nat),
    listLeB a b = true → listLeB b c = true → listLeB a c = true
  | [], _, _, _, _ => rfl
  | _ :: _, [], _, h1, _ => by simp [listLeB] at h1
  | _ :: _, _ :: _, [], _, h2 => by simp [listLeB] at h2
  | x :: as, y :: bs, z :: cs, h1, h2 => by
    simp only [listLeB] at h1 h2 ⊢
    rcases Nat.lt_trichotomy x y with hxy | rfl | hxy
    · rcases Nat.lt_trichotomy y z with hyz | rfl | hyz
      · simp [Nat.lt_trans hxy hyz]
      · simp [hxy]
      · rw [if_neg (by omega), if_pos hyz] at h2
        simp at h2
    · rw [if_neg (by omega), if_neg (by omega)] at h1
      rcases Nat.lt_trichotomy x z with hxz | rfl | hxz
      · simp [hxz]
      · rw [if_neg (by omega), if_neg (by omega)] at h2 ⊢
        exact listLeB_trans as bs cs h1 h2
      · rw [if_neg (by omega), if_pos hxz] at h2
        simp at h2
    · rw [if_neg (by omega), if_pos hxy] at h1
      simp at h1

/-- A foldl that keeps widening by maxima equals the maximum of the seed
and the elementwise maximum. -/
theorem foldl_max_eq {α : Type} (f : α → Nat) :
    ∀ (l : List α) (a : Nat),
      l.foldl (fun w x => max w (f x)) a = max a ((l.map f).foldr max 0)
  | [], a => by simp
  | x :: xs, a => by
    simp only [List.foldl_cons, List.map_cons, List.foldr_cons]
    rw [foldl_max_eq f xs (max a (f x)), Nat.max_assoc]

/-- Taking a prefix again after inserting a taken prefix changes
nothing. -/
theorem take_append_absorb {α : Type} (m : Nat) (A B : List α) :
    List.take m (A ++ List.take m B) = List.take m (A ++ B) := by
  rw [List.take_append_eq_append_take, List.take_append_eq_append_take, List.take_take,
    Nat.min_eq_left (Nat.sub_le _ _)]

/-- Taking a positive number of elements of a cons keeps the head. -/
theorem take_cons_of_pos {α : Type} {m : Nat} (hm : 1 ≤ m) (a : α) (l : List α) :
    List.take m (a :: l) = a :: List.take (m - 1) l := by
  cases m with
  | zero => omega
  | succ n => simp [List.take_succ_cons]

/-- The push branch always equals a take of the extended list. -/
theorem pushEntry_eq (h : History) (q : String) (maxLen : Nat) (now : Int) :
    pushEntry h q maxLen now =
      ⟨List.take maxLen ((⟨q, now⟩ : HistoryEntry) :: h.entries)⟩ := by
  unfold pushEntry
  simp only []
  split
  · rfl
  · next hle => rw [List.take_of_length_le (Nat.le_of_not_lt hle)]

/-- When the trimmed query is non-empty and does not match the head
entry, appendHistory pushes a new entry and cuts to maxLen. -/
theorem appendHistory_push (h : History) (query : String) (maxLen : Nat) (now : Int)
    (hq : goTrimSpace query ≠ "")
    (hhead : h.entries.head?.map (fun e => e.query) ≠ some (goTrimSpace query)) :
    appendHistory h query maxLen now =
      ⟨List.take maxLen ((⟨goTrimSpace query, now⟩ : HistoryEntry) :: h.entries)⟩ := by
  unfold appendHistory
  rw [if_neg hq, if_neg hhead, pushEntry_eq]

/-- When the trimmed query matches the head entry, appendHistory only
refreshes the timestamp of the head. -/
theorem appendHistory_refresh (h : History) (query : String) (maxLen : Nat) (now : Int)
    (hq : h.entries.head?.map (fun e => e.query) = some (goTrimSpace query))
    (hne : goTrimSpace query ≠ "") :
    appendHistory h query maxLen now =
      ⟨⟨goTrimSpace query, now⟩ :: h.entries.tail⟩ := by
  unfold appendHistory
  rw [if_neg hne, if_pos hq]

/-- Appending a batch of mutually fresh queries prepends them in reverse
order, cut to maxLen. -/
theorem appendAll_fresh (maxLen : Nat) (hm : 1 ≤ maxLen) :
    ∀ (ps : List (String × Int)) (h : History),
      (∀ p ∈ ps, goTrimSpace p.1 = p.1 ∧ p.1 ≠ "") →
      List.Chain' (fun a b => a ≠ b) (ps.map (fun p => p.1)) →
      (∀ p0, ps.head? = some p0 →
        h.entries.head?.map (fun e => e.query) ≠ some p0.1) →
      h.entries.length ≤ maxLen →
      (appendAll maxLen ps h).entries =
        List.take maxLen
          ((ps.map (fun p => (⟨p.1, p.2⟩ : HistoryEntry))).reverse ++ h.entries)
  | [], h, _, _, _, hlen => by
    simp [appendAll, List.take_of_length_le hlen]
  | p :: rest, h, htrim, hchain, hhead, hlen => by
    have htp := htrim p (by simp)
    have hstep : appendHistory h p.1 maxLen p.2 =
        ⟨List.take maxLen ((⟨p.1, p.2⟩ : HistoryEntry) :: h.entries)⟩ := by
      have := appendHistory_push h p.1 maxLen p.2
        (by rw [htp.1]; exact htp.2)
        (by rw [htp.1]; exact hhead p rfl)
      rwa [htp.1] at this
    have hchain1 : List.Chain' (fun a b => a ≠ b) (rest.map (fun q => q.1)) := by
      simp only [List.map_cons] at hchain
      exact hchain.tail
    have hne01 : ∀ p0, rest.head? = some p0 → p.1 ≠ p0.1 := by
      intro p0 hp0
      rcases rest with _ | ⟨p1, rest1⟩
      · simp at hp0
      · simp only [List.head?_cons, Option.some.injEq] at hp0
        subst hp0
        simp only [List.map_cons] at hchain
        exact (List.chain'_cons.mp hchain).1
    have hrest :
        (appendAll maxLen rest (appendHistory h p.1 maxLen p.2)).entries =
        List.take maxLen
          ((rest.map (fun q => (⟨q.1, q.2⟩ : HistoryEntry))).reverse ++
            (appendHistory h p.1 maxLen p.2).entries) := by
      refine appendAll_fresh maxLen hm rest (appendHistory h p.1 maxLen p.2)
        (fun q hq => htrim q (by simp [hq])) hchain1 ?_ ?_
      · intro p0 hp0
        rw [hstep]
        show (List.take maxLen ((⟨p.1, p.2⟩ : HistoryEntry) :: h.entries)).head?.map
            (fun e => e.query) ≠ some p0.1
        rw [take_cons_of_pos hm]
        simp only [List.head?_cons, Option.map_some]
        intro hcontra
        exact hne01 p0 hp0 (Option.some.inj hcontra)
      · rw [hstep]
        show (List.take maxLen ((⟨p.1, p.2⟩ : HistoryEntry) :: h.entries)).length ≤ maxLen
        rw [List.length_take]
        exact Nat.min_le_left _ _
    show (appendAll maxLen rest (appendHistory h p.1 maxLen p.2)).entries = _
    rw [hrest, hstep]
    show List.take maxLen
        ((rest.map (fun q => (⟨q.1, q.2⟩ : HistoryEntry))).reverse ++
          List.take maxLen ((⟨p.1, p.2⟩ : HistoryEntry) :: h.entries)) = _
    rw [take_append_absorb]
    simp only [List.map_cons, List.reverse_cons, List.append_assoc, List.singleton_append]

/-- Unmarshalling inverts marshalling on each entry list. -/
theorem entriesOfList_map : ∀ (l : List HistoryEntry),
    entriesOfList (l.map entryJson) = some l
  | [] => rfl
  | e :: es => by
    show (match entryOfJson (entryJson e), entriesOfList (es.map entryJson) with
      | some e, some es => some (e :: es)
      | _, _ => none) = some (e :: es)
    rw [entriesOfList_map es]
    have he : entryOfJson (entryJson e) = some e := by
      cases e with
      | mk q t => rfl
    rw [he]

/-- Unmarshalling inverts marshalling on the history struct. -/
theorem unmarshal_marshal (h : History) :
    unmarshalHistory (marshalHistory h) = some h := by
  show (entriesOfJson (Json.arr (h.entries.map entryJson))).map
      (fun es => (⟨es⟩ : History)) = some h
  show (entriesOfList (h.entries.map entryJson)).map
      (fun es => (⟨es⟩ : History)) = some h
  rw [entriesOfList_map]
  rfl

/-! ## Claims -/

/-- Claim C1: fetchQuery classifies a successful body in a fixed order:
if the body unmarshals as a list of row maps the result is the tabular
payload with kind json; otherwise, if it parses as arbitrary JSON, the
generic payload with kind json; otherwise the raw text payload with kind
text.  On the concrete bodies: a one-object array is tabular, an array of
numbers is generic JSON, and a non-JSON body is text. -/
theorem fetchQuery_classification :
    (∀ (j : Json) (rs : List RowMap) (raw : String),
      rowsOfJson j = some rs → classifyBody (some j) raw = (Payload.rows rs, "json"))
    ∧ (∀ (j : Json) (raw : String),
      rowsOfJson j = none → classifyBody (some j) raw = (Payload.gen j, "json"))
    ∧ (∀ raw : String, classifyBody none raw = (Payload.text raw, "text"))
    ∧ fetchClassify "[\x7b\"a\":1\x7d]" = (Payload.rows [[("a", Json.num 1)]], "json")
    ∧ fetchClassify "[1,2,3]" =
        (Payload.gen (Json.arr [Json.num 1, Json.num 2, Json.num 3]), "json")
    ∧ fetchClassify "not json" = (Payload.text "not json", "text") := by
  refine ⟨?_, ?_, ?_, rfl, rfl, rfl⟩
  · intro j rs raw h
    show (match rowsOfJson j with
      | some rs => (Payload.rows rs, "json")
      | none => (Payload.gen j, "json")) = (Payload.rows rs, "json")
    rw [h]
  · intro j raw h
    show (match rowsOfJson j with
      | some rs => (Payload.rows rs, "json")
      | none => (Payload.gen j, "json")) = (Payload.gen j, "json")
    rw [h]
  · intro raw
    rfl

/-- Witness for C1 on concrete inputs of each shape. -/
theorem fetchQuery_classification_wit :
    classifyBody (some Json.null) "null" = (Payload.rows [], "json")
    ∧ classifyBody (some (Json.num 5)) "5" = (Payload.gen (Json.num 5), "json")
    ∧ classifyBody none "zzz" = (Payload.text "zzz", "text") :=
  ⟨fetchQuery_classification.1 Json.null [] "null" rfl,
   fetchQuery_classification.2.1 (Json.num 5) "5" rfl,
   fetchQuery_classification.2.2.1 "zzz"⟩

/-- Claim C9: a body that unmarshals into a nil or empty row-map list, in
particular null and the empty array, is a successful tabular result of
kind json, and the session applies it as zero rows: table cleared and the
no-results message shown, never the generic or text path. -/
theorem nullBody_tabular :
    fetchClassify "null" = (Payload.rows [], "json")
    ∧ fetchClassify "[]" = (Payload.rows [], "json")
    ∧ (∀ (j : Json) (raw : String), rowsOfJson j = some [] →
        classifyBody (some j) raw = (Payload.rows [], "json"))
    ∧ (∀ (cfg : Config) (st : Session) (raw : String),
        applyFetch cfg st (Payload.rows []) "json" raw =
          { st with
              rawText := raw
              currentData := []
              rowCount := 0
              table := []
              detail := DetailView.message "[yellow]No results"
              statusMsg := "[green]Fetched 0 rows" }) := by
  refine ⟨rfl, rfl, ?_, ?_⟩
  · intro j raw h
    show (match rowsOfJson j with
      | some rs => (Payload.rows rs, "json")
      | none => (Payload.gen j, "json")) = (Payload.rows [], "json")
    rw [h]
  · intro cfg st raw
    rfl

/-- Witness for C9 at a concrete empty-array body and a concrete
session. -/
theorem nullBody_tabular_wit :
    classifyBody (some (Json.arr [])) "x" = (Payload.rows [], "json")
    ∧ applyFetch DefaultConfig sampleSession (Payload.rows []) "json" "raw" =
        { sampleSession with
            rawText := "raw"
            currentData := []
            rowCount := 0
            table := []
            detail := DetailView.message "[yellow]No results"
            statusMsg := "[green]Fetched 0 rows" } :=
  ⟨nullBody_tabular.2.2.1 (Json.arr []) "x" rfl,
   nullBody_tabular.2.2.2 DefaultConfig sampleSession "raw"⟩

/-- Claim C10: truncateString returns its input unchanged when the byte
length is at most maxLen; otherwise it keeps the first maxLen minus one
bytes and appends the three-byte ellipsis, so the result length is
maxLen plus two; the kept bytes can split a multi-byte character; and the
slice is in range only for positive maxLen (maxLen zero with a non-empty
string is out of range). -/
theorem truncateString_behavior :
    (∀ (s : List Nat) (maxLen : Int), (s.length : Int) ≤ maxLen →
      truncateStringB s maxLen = some s)
    ∧ (∀ (s : List Nat) (maxLen : Int), 1 ≤ maxLen → maxLen < (s.length : Int) →
        truncateStringB s maxLen = some (s.take (maxLen - 1).toNat ++ ellipsisBytes)
        ∧ ∀ r, truncateStringB s maxLen = some r → (r.length : Int) = maxLen + 2)
    ∧ (∀ (s : List Nat) (maxLen : Int), maxLen ≤ 0 → maxLen < (s.length : Int) →
        truncateStringB s maxLen = none)
    ∧ truncateStringB (strBytes (String.mk [Char.ofNat 945, Char.ofNat 946])) 2 =
        some [206, 226, 128, 166]
    ∧ truncateStringB [97] 0 = none := by
  refine ⟨?_, ?_, ?_, by decide, by decide⟩
  · intro s maxLen h
    unfold truncateStringB
    rw [if_pos h]
  · intro s maxLen h1 h2
    have heq : truncateStringB s maxLen =
        some (s.take (maxLen - 1).toNat ++ ellipsisBytes) := by
      unfold truncateStringB
      rw [if_neg (by omega), if_pos h1]
    refine ⟨heq, ?_⟩
    intro r hr
    rw [heq] at hr
    have hr' := Option.some.inj hr
    subst hr'
    have hell : ellipsisBytes.length = 3 := rfl
    rw [List.length_append, List.length_take, hell]
    omega
  · intro s maxLen h1 h2
    unfold truncateStringB
    rw [if_neg (by omega), if_neg (by omega)]

/-- Witness for C10: a fitting string, a truncated one, and the
out-of-range case. -/
theorem truncateString_behavior_wit :
    truncateStringB [104, 105] 5 = some [104, 105]
    ∧ truncateStringB [1, 2, 3, 4] 2 = some ([1, 2, 3, 4].take 1 ++ ellipsisBytes)
    ∧ truncateStringB [9, 8] (-1) = none :=
  ⟨truncateString_behavior.1 [104, 105] 5 (by decide),
   (truncateString_behavior.2.1 [1, 2, 3, 4] 2 (by decide) (by decide)).1,
   truncateString_behavior.2.2.1 [9, 8] (-1) (by decide) (by decide)⟩

/-- Claim C7: saving and loading the history reproduces the same entry
sequence; a missing file loads as the empty history rather than an
error; and contents that fail to parse or unmarshal also load as the
empty history. -/
theorem historyPersistence_roundtrip :
    (∀ h : History, loadHistoryM (saveHistoryM h) = Except.ok h)
    ∧ loadHistoryM FileState.missing = Except.ok ⟨[]⟩
    ∧ loadHistoryM (FileState.content none) = Except.ok ⟨[]⟩
    ∧ (∀ j : Json, unmarshalHistory j = none →
        loadHistoryM (FileState.content (some j)) = Except.ok ⟨[]⟩) := by
  refine ⟨?_, rfl, rfl, ?_⟩
  · intro h
    show Except.ok (match unmarshalHistory (marshalHistory h) with
      | some h => h
      | none => (⟨[]⟩ : History)) = Except.ok h
    rw [unmarshal_marshal h]
  · intro j hj
    show Except.ok (match unmarshalHistory j with
      | some h => h
      | none => (⟨[]⟩ : History)) = Except.ok (⟨[]⟩ : History)
    rw [hj]

/-- Witness for C7: a concrete round trip and a concrete unmarshal
failure. -/
theorem historyPersistence_roundtrip_wit :
    loadHistoryM (saveHistoryM ⟨[⟨"q1", 7⟩, ⟨"q2", 9⟩]⟩) =
      Except.ok ⟨[⟨"q1", 7⟩, ⟨"q2", 9⟩]⟩
    ∧ loadHistoryM (FileState.content (some (Json.num 3))) = Except.ok ⟨[]⟩ :=
  ⟨historyPersistence_roundtrip.1 ⟨[⟨"q1", 7⟩, ⟨"q2", 9⟩]⟩,
   historyPersistence_roundtrip.2.2.2 (Json.num 3) rfl⟩


/-- One append keeps the length bound. -/
theorem appendHistory_length_le (h : History) (q : String) (maxLen : Nat) (now : Int)
    (hl : h.entries.length ≤ maxLen) :
    (appendHistory h q maxLen now).entries.length ≤ maxLen := by
  unfold appendHistory
  split
  · exact hl
  · split
    · next hhead =>
      show (h.entries.tail).length + 1 ≤ maxLen
      cases hent : h.entries with
      | nil => rw [hent] at hhead; simp at hhead
      | cons e rest =>
        rw [hent] at hl
        simp only [List.tail_cons]
        simp only [List.length_cons] at hl
        omega
    · rw [pushEntry_eq]
      show (List.take maxLen _).length ≤ maxLen
      rw [List.length_take]
      exact Nat.min_le_left _ _

/-- One append keeps the dedupe invariant. -/
theorem appendHistory_chain (h : History) (q : String) (maxLen : Nat) (now : Int)
    (hc : noConsecDup h.entries) :
    noConsecDup (appendHistory h q maxLen now).entries := by
  unfold appendHistory
  split
  · exact hc
  · split
    · next hhead =>
      cases hent : h.entries with
      | nil => rw [hent] at hhead; simp at hhead
      | cons e rest =>
        rw [hent] at hhead hc
        simp only [List.head?_cons, Option.map_some', Option.some.injEq] at hhead
        show noConsecDup ((⟨goTrimSpace q, now⟩ : HistoryEntry) :: (e :: rest).tail)
        simp only [List.tail_cons]
        unfold noConsecDup at hc ⊢
        rw [List.chain'_cons'] at hc ⊢
        refine ⟨?_, hc.2⟩
        intro y hy
        have hne := hc.1 y hy
        show goTrimSpace q ≠ y.query
        rw [← hhead]
        exact hne
    · next hhead =>
      rw [pushEntry_eq]
      show noConsecDup (List.take maxLen ((⟨goTrimSpace q, now⟩ : HistoryEntry) :: h.entries))
      unfold noConsecDup
      refine List.Chain'.take ?_ maxLen
      rw [List.chain'_cons']
      refine ⟨?_, hc⟩
      intro y hy
      intro hqy
      apply hhead
      cases hent : h.entries with
      | nil => rw [hent] at hy; simp at hy
      | cons e rest =>
        rw [hent] at hy
        simp at hy
        subst hy
        simp only [List.head?_cons, Option.map_some']
        exact congrArg some hqy.symm

/-- Deleting never lengthens the history. -/
theorem deleteHistory_length_le (h : History) (i : Nat) :
    (deleteHistory h i).entries.length ≤ h.entries.length := by
  unfold deleteHistory
  split
  · show (List.take i h.entries ++ List.drop (i + 1) h.entries).length ≤ _
    rw [List.length_append, List.length_take, List.length_drop]
    omega
  · exact Nat.le_refl _

/-- Claim C2: appendHistory trims the query and ignores whitespace-only
input; a repeat of the most recent query only refreshes the head
timestamp (same length, no new entry, and only position zero is
compared); any other query is pushed in front with the tail cut to
maxLen; appending the same query twice in succession therefore leaves the
length of the first append and stamps the head with the second time;
non-consecutive duplicates stay separate entries; and appending maxLen
plus five distinct fresh queries to the empty history leaves exactly
maxLen entries, most recent first. -/
theorem appendHistory_behavior :
    (∀ (h : History) (query : String) (maxLen : Nat) (now : Int),
      goTrimSpace query = "" → appendHistory h query maxLen now = h)
    ∧ (∀ (h : History) (query : String) (maxLen : Nat) (now : Int),
        goTrimSpace query ≠ "" →
        h.entries.head?.map (fun e => e.query) = some (goTrimSpace query) →
        appendHistory h query maxLen now =
          ⟨⟨goTrimSpace query, now⟩ :: h.entries.tail⟩
        ∧ (appendHistory h query maxLen now).entries.length = h.entries.length)
    ∧ (∀ (h : History) (query : String) (maxLen : Nat) (now : Int),
        goTrimSpace query ≠ "" →
        h.entries.head?.map (fun e => e.query) ≠ some (goTrimSpace query) →
        appendHistory h query maxLen now =
          ⟨List.take maxLen ((⟨goTrimSpace query, now⟩ : HistoryEntry) :: h.entries)⟩)
    ∧ (∀ (h : History) (query : String) (maxLen : Nat) (t1 t2 : Int),
        1 ≤ maxLen → goTrimSpace query ≠ "" →
        (appendHistory h query maxLen t1).entries.head?.map (fun e => e.query)
          = some (goTrimSpace query)
        ∧ appendHistory (appendHistory h query maxLen t1) query maxLen t2 =
            ⟨⟨goTrimSpace query, t2⟩ :: (appendHistory h query maxLen t1).entries.tail⟩
        ∧ (appendHistory (appendHistory h query maxLen t1) query maxLen t2).entries.length
            = (appendHistory h query maxLen t1).entries.length)
    ∧ (appendAll 200 [("select 1", 0), ("select 2", 1), ("select 1", 2)] ⟨[]⟩).entries
        = [⟨"select 1", 2⟩, ⟨"select 2", 1⟩, ⟨"select 1", 0⟩]
    ∧ (∀ (maxLen : Nat) (ps : List (String × Int)),
        1 ≤ maxLen → ps.length = maxLen + 5 →
        (∀ p ∈ ps, goTrimSpace p.1 = p.1 ∧ p.1 ≠ "") →
        List.Pairwise (fun a b => a ≠ b) (ps.map (fun p => p.1)) →
        (appendAll maxLen ps ⟨[]⟩).entries.length = maxLen
        ∧ (appendAll maxLen ps ⟨[]⟩).entries
            = List.take maxLen
                ((ps.map (fun p => (⟨p.1, p.2⟩ : HistoryEntry))).reverse)) := by
  have hrefresh : ∀ (h : History) (query : String) (maxLen : Nat) (now : Int),
      goTrimSpace query ≠ "" →
      h.entries.head?.map (fun e => e.query) = some (goTrimSpace query) →
      appendHistory h query maxLen now =
        ⟨⟨goTrimSpace query, now⟩ :: h.entries.tail⟩
      ∧ (appendHistory h query maxLen now).entries.length = h.entries.length := by
    intro h query maxLen now hq hhead
    have heq := appendHistory_refresh h query maxLen now hhead hq
    refine ⟨heq, ?_⟩
    rw [heq]
    cases hent : h.entries with
    | nil => rw [hent] at hhead; simp at hhead
    | cons e rest => simp
  refine ⟨?_, hrefresh, ?_, ?_, by decide, ?_⟩
  · intro h query maxLen now hq
    unfold appendHistory
    rw [if_pos hq]
  · intro h query maxLen now hq hhead
    exact appendHistory_push h query maxLen now hq hhead
  · intro h query maxLen t1 t2 hm hq
    have hhead1 : (appendHistory h query maxLen t1).entries.head?.map (fun e => e.query)
        = some (goTrimSpace query) := by
      by_cases hh : h.entries.head?.map (fun e => e.query) = some (goTrimSpace query)
      · rw [(hrefresh h query maxLen t1 hq hh).1]
        rfl
      · rw [appendHistory_push h query maxLen t1 hq hh, ]
        show (List.take maxLen ((⟨goTrimSpace query, t1⟩ : HistoryEntry) :: h.entries)).head?.map
            (fun e => e.query) = some (goTrimSpace query)
        rw [take_cons_of_pos hm]
        rfl
    exact ⟨hhead1, hrefresh _ query maxLen t2 hq hhead1⟩
  · intro maxLen ps hm hlen htrim hpw
    have hfresh := appendAll_fresh maxLen hm ps ⟨[]⟩ htrim hpw.chain'
      (by intro p0 _; simp) (by simp)
    have hlen2 : ((ps.map (fun p => (⟨p.1, p.2⟩ : HistoryEntry))).reverse).length
        = maxLen + 5 := by
      rw [List.length_reverse, List.length_map, hlen]
    constructor
    · rw [hfresh]
      simp only [List.append_nil]
      rw [List.length_take, hlen2]
      omega
    · rw [hfresh]
      simp only [List.append_nil]

/-- Witness for C2: whitespace no-op, concrete dedupe of a repeated
query, and a concrete eviction run with maxLen one and six distinct
queries. -/
theorem appendHistory_behavior_wit :
    appendHistory ⟨[]⟩ "   " 200 0 = ⟨[]⟩
    ∧ appendHistory (appendHistory ⟨[]⟩ "select 1" 200 0) "select 1" 200 1 =
        ⟨⟨"select 1", 1⟩ :: (appendHistory ⟨[]⟩ "select 1" 200 0).entries.tail⟩
    ∧ (appendAll 1 [("a", 0), ("b", 1), ("c", 2), ("d", 3), ("e", 4), ("f", 5)] ⟨[]⟩).entries
        = List.take 1
            (([("a", (0 : Int)), ("b", 1), ("c", 2), ("d", 3), ("e", 4), ("f", 5)].map
              (fun p => (⟨p.1, p.2⟩ : HistoryEntry))).reverse) :=
  ⟨appendHistory_behavior.1 ⟨[]⟩ "   " 200 0 (by decide),
   (appendHistory_behavior.2.2.2.1 ⟨[]⟩ "select 1" 200 0 1 (by decide) (by decide)).2.1,
   (appendHistory_behavior.2.2.2.2.2 1
      [("a", 0), ("b", 1), ("c", 2), ("d", 3), ("e", 4), ("f", 5)]
      (by decide) (by decide) (by decide) (by decide)).2⟩

/-- Counterexample for C3: the history reached by appending select 1,
select 2, select 1 and then deleting the middle entry is reachable, yet
its two remaining entries are consecutive duplicates, so delete does not
preserve the dedupe invariant. -/
theorem historyInvariant_delete_cex :
    ReachableHist 200
      (deleteHistory
        (appendHistory
          (appendHistory (appendHistory ⟨[]⟩ "select 1" 200 0) "select 2" 200 1)
          "select 1" 200 2) 1)
    ∧ ¬ noConsecDup
        (deleteHistory
          (appendHistory
            (appendHistory (appendHistory ⟨[]⟩ "select 1" 200 0) "select 2" 200 1)
            "select 1" 200 2) 1).entries := by
  constructor
  · exact ReachableHist.del 1
      (ReachableHist.append "select 1" 2
        (ReachableHist.append "select 2" 1
          (ReachableHist.append "select 1" 0 ReachableHist.empty)))
  · intro hc
    have hent :
        (deleteHistory
          (appendHistory
            (appendHistory (appendHistory ⟨[]⟩ "select 1" 200 0) "select 2" 200 1)
            "select 1" 200 2) 1).entries =
        [⟨"select 1", 2⟩, ⟨"select 1", 0⟩] := rfl
    rw [hent] at hc
    unfold noConsecDup at hc
    rw [List.chain'_cons'] at hc
    exact hc.1 ⟨"select 1", 0⟩ rfl rfl

/-- Claim C3 amended: every history reachable by append and delete keeps
the length bound; histories reachable by append alone also keep the
no-consecutive-duplicates invariant; delete preserves the length bound
but can merge two equal queries into adjacent positions (see the
counterexample). -/
theorem historyInvariant_amended :
    (∀ (maxLen : Nat) (h : History), ReachableHist maxLen h →
      h.entries.length ≤ maxLen)
    ∧ (∀ (maxLen : Nat) (h : History), ReachableAppend maxLen h →
        h.entries.length ≤ maxLen ∧ noConsecDup h.entries)
    ∧ (∀ (maxLen : Nat) (h : History) (i : Nat), h.entries.length ≤ maxLen →
        (deleteHistory h i).entries.length ≤ maxLen) := by
  refine ⟨?_, ?_, ?_⟩
  · intro maxLen h hr
    induction hr with
    | empty => simp
    | append q now _ ih => exact appendHistory_length_le _ q maxLen now ih
    | del i _ ih => exact Nat.le_trans (deleteHistory_length_le _ i) ih
  · intro maxLen h hr
    induction hr with
    | empty => exact ⟨by simp, List.chain'_nil⟩
    | append q now _ ih =>
      exact ⟨appendHistory_length_le _ q maxLen now ih.1,
        appendHistory_chain _ q maxLen now ih.2⟩
  · intro maxLen h i hl
    exact Nat.le_trans (deleteHistory_length_le h i) hl

/-- Witness for C3 at a concrete reachable history and a concrete
delete. -/
theorem historyInvariant_amended_wit :
    (appendHistory ⟨[]⟩ "q" 200 0).entries.length ≤ 200
    ∧ (deleteHistory ⟨[⟨"a", 0⟩, ⟨"b", 1⟩]⟩ 0).entries.length ≤ 2
    ∧ (appendHistory ⟨[]⟩ "q" 200 0).entries.length ≤ 200
        ∧ noConsecDup (appendHistory ⟨[]⟩ "q" 200 0).entries :=
  ⟨historyInvariant_amended.1 200 _ (ReachableHist.append "q" 0 ReachableHist.empty),
   historyInvariant_amended.2.2 2 ⟨[⟨"a", 0⟩, ⟨"b", 1⟩]⟩ 0 (by decide),
   historyInvariant_amended.2.1 200 _ (ReachableAppend.append "q" 0 ReachableAppend.empty)⟩


/-- Mapping the first component over key-value pairs built from keys
gives back the keys. -/
theorem map_fst_pairs {α β : Type} (f : α → β) :
    ∀ (l : List α), (l.map (fun k => (k, f k))).map (fun p => p.1) = l
  | [] => rfl
  | x :: xs => by
    rw [List.map_cons, List.map_cons, map_fst_pairs f xs]

/-- A valid header selection runs the sort body. -/
theorem activateHeader_eq (cfg : Config) (st : Session) (col : Nat)
    (h1 : 0 < st.currentData.length) (h2 : col < st.currentColumns.length) :
    activateHeader cfg st 0 col = activatedState cfg st col := by
  unfold activateHeader
  rw [if_pos ⟨rfl, h1, h2⟩]

/-- Sorting the rows permutes them. -/
theorem sortRowsBy_perm (asc : Bool) (c : String) (data : List RowMap) :
    (sortRowsBy asc c data).Perm data := by
  unfold sortRowsBy
  split
  · exact List.perm_insertionSort _ _
  · exact List.perm_insertionSort _ _

/-- Claim C4: on a non-empty result, activating the header of the
currently sorted column flips the direction, activating a different
column selects it ascending, the rows end up ordered by the bytewise
comparison of the rendered cell strings (so the string ten sorts before
the string nine ascending), the selection resets to the first data row,
a second activation of the same valid column flips the direction again,
and running a new query resets the sort column to none and the direction
to ascending. -/
theorem sortActivation_behavior :
    (∀ (cfg : Config) (st : Session) (col : Nat),
      0 < st.currentData.length → col < st.currentColumns.length →
      ((activateHeader cfg st 0 col).sortColumn = (col : Int)
      ∧ (st.sortColumn = (col : Int) →
          (activateHeader cfg st 0 col).sortAscending = ! st.sortAscending)
      ∧ (st.sortColumn ≠ (col : Int) →
          (activateHeader cfg st 0 col).sortAscending = true)
      ∧ (activateHeader cfg st 0 col).currentData =
          sortRowsBy (activateHeader cfg st 0 col).sortAscending
            (st.currentColumns.getD col "") st.currentData
      ∧ ((activateHeader cfg st 0 col).currentData).Perm st.currentData
      ∧ ((activateHeader cfg st 0 col).sortAscending = true →
          List.Sorted (rowLe (st.currentColumns.getD col ""))
            (activateHeader cfg st 0 col).currentData)
      ∧ ((activateHeader cfg st 0 col).sortAscending = false →
          List.Sorted (rowGe (st.currentColumns.getD col ""))
            (activateHeader cfg st 0 col).currentData)
      ∧ (activateHeader cfg st 0 col).selRow = 1
      ∧ (activateHeader cfg st 0 col).selCol = 0
      ∧ (col < (activateHeader cfg st 0 col).currentColumns.length →
          (activateHeader cfg (activateHeader cfg st 0 col) 0 col).sortAscending
            = ! (activateHeader cfg st 0 col).sortAscending)))
    ∧ sortRowsBy true "id" [[("id", Json.str "9")], [("id", Json.str "10")]]
        = [[("id", Json.str "10")], [("id", Json.str "9")]]
    ∧ (∀ (cfg : Config) (st : Session) (hist : History) (q : String) (now : Int),
        (runQueryStart cfg st hist q now).1.sortColumn = -1
        ∧ (runQueryStart cfg st hist q now).1.sortAscending = true) := by
  refine ⟨?_, rfl, fun cfg st hist q now => ⟨rfl, rfl⟩⟩
  intro cfg st col h1 h2
  have heq := activateHeader_eq cfg st col h1 h2
  have hdata : (activatedState cfg st col).currentData =
      sortRowsBy (if st.sortColumn = (col : Int) then ! st.sortAscending else true)
        (st.currentColumns.getD col "") st.currentData := rfl
  refine ⟨?_, ?_, ?_, ?_, ?_, ?_, ?_, ?_, ?_, ?_⟩
  · rw [heq]; rfl
  · intro hsame
    rw [heq]
    show (if st.sortColumn = (col : Int) then ! st.sortAscending else true)
        = ! st.sortAscending
    rw [if_pos hsame]
  · intro hdiff
    rw [heq]
    show (if st.sortColumn = (col : Int) then ! st.sortAscending else true) = true
    rw [if_neg hdiff]
  · rw [heq]; rfl
  · rw [heq, hdata]
    exact sortRowsBy_perm _ _ _
  · intro hasc
    rw [heq] at hasc ⊢
    have hasc2 : (if st.sortColumn = (col : Int) then ! st.sortAscending else true)
        = true := hasc
    rw [hdata, hasc2]
    show List.Sorted (rowLe (st.currentColumns.getD col ""))
      (List.insertionSort (rowLe (st.currentColumns.getD col "")) st.currentData)
    haveI : IsTotal RowMap (rowLe (st.currentColumns.getD col "")) :=
      ⟨fun a b => listLeB_total _ _⟩
    haveI : IsTrans RowMap (rowLe (st.currentColumns.getD col "")) :=
      ⟨fun a b c hab hbc => listLeB_trans _ _ _ hab hbc⟩
    exact List.sorted_insertionSort _ _
  · intro hasc
    rw [heq] at hasc ⊢
    have hasc2 : (if st.sortColumn = (col : Int) then ! st.sortAscending else true)
        = false := hasc
    rw [hdata, hasc2]
    show List.Sorted (rowGe (st.currentColumns.getD col ""))
      (List.insertionSort (rowGe (st.currentColumns.getD col "")) st.currentData)
    haveI : IsTotal RowMap (rowGe (st.currentColumns.getD col "")) :=
      ⟨fun a b => listLeB_total _ _⟩
    haveI : IsTrans RowMap (rowGe (st.currentColumns.getD col "")) :=
      ⟨fun a b c hab hbc => listLeB_trans _ _ _ hbc hab⟩
    exact List.sorted_insertionSort _ _
  · rw [heq]; rfl
  · rw [heq]; rfl
  · intro hcol2
    rw [heq] at hcol2 ⊢
    have h1b : 0 < (activatedState cfg st col).currentData.length := by
      rw [hdata, (sortRowsBy_perm _ _ _).length_eq]
      exact h1
    rw [activateHeader_eq cfg (activatedState cfg st col) col h1b hcol2]
    have hc : (activatedState cfg st col).sortColumn = (col : Int) := rfl
    show (if (activatedState cfg st col).sortColumn = (col : Int) then
        ! (activatedState cfg st col).sortAscending else true)
        = ! (activatedState cfg st col).sortAscending
    rw [if_pos hc]

/-- Witness for C4 at a concrete two-row result. -/
theorem sortActivation_behavior_wit :
    (activateHeader DefaultConfig sampleTable 0 0).sortColumn = 0
    ∧ (activateHeader DefaultConfig sampleTable 0 0).selRow = 1
    ∧ (runQueryStart DefaultConfig sampleTable ⟨[]⟩ "q" 0).1.sortColumn = -1 :=
  ⟨(sortActivation_behavior.1 DefaultConfig sampleTable 0 (by decide) (by decide)).1,
   (sortActivation_behavior.1 DefaultConfig sampleTable 0 (by decide)
      (by decide)).2.2.2.2.2.2.2.1,
   (sortActivation_behavior.2.2 DefaultConfig sampleTable ⟨[]⟩ "q" 0).1⟩

/-- The width loop of renderJSONToTable, written as a maximum. -/
theorem colWidth_eq (maxCol : Nat) (data : List RowMap) (k : String) :
    colWidth maxCol data k =
      min maxCol (max (max 8 (goLen k))
        (((data.take 5).map (fun row => goLen (valStr row k))).foldr max 0)) := by
  unfold colWidth
  rw [foldl_max_eq (fun row => goLen (valStr row k))]

/-- Claim C5 amended: the display width of a column is the maximum of
eight, the byte length of the column name, and the byte lengths of the
rendered values of the first five rows, capped at the configured maximum;
with a cap of at least eight the width lies between eight and the cap;
and a cell whose rendered value is longer than the width in bytes keeps
its first width minus one bytes followed by the ellipsis (so its byte
length is width plus two), while a fitting value is shown whole.  All
lengths are byte lengths, not character counts (see the
counterexample). -/
theorem columnWidth_bytes :
    (∀ (maxCol : Nat) (data : List RowMap) (k : String),
      colWidth maxCol data k =
        min maxCol (max (max 8 (goLen k))
          (((data.take 5).map (fun row => goLen (valStr row k))).foldr max 0)))
    ∧ (∀ (maxCol : Nat) (data : List RowMap) (k : String), 8 ≤ maxCol →
        8 ≤ colWidth maxCol data k ∧ colWidth maxCol data k ≤ maxCol)
    ∧ (∀ (w : Nat) (s : String), 1 ≤ w → w < goLen s →
        renderCell w s = (strBytes s).take (w - 1) ++ ellipsisBytes
        ∧ (renderCell w s).length = w + 2)
    ∧ (∀ (w : Nat) (s : String), goLen s ≤ w → renderCell w s = strBytes s)
    ∧ (∀ (cfg : Config) (oldCols : List String) (r : RowMap) (rest : List RowMap),
        (renderJSONToTable cfg (r :: rest) oldCols).1 =
          (colsOf (r :: rest)).map strBytes ::
            (r :: rest).map (fun row =>
              (colsOf (r :: rest)).map (fun k =>
                renderCell (colWidth cfg.maxColumnWidth (r :: rest) k) (valStr row k)))) := by
  refine ⟨colWidth_eq, ?_, ?_, ?_, ?_⟩
  · intro maxCol data k h8
    rw [colWidth_eq]
    constructor
    · omega
    · exact Nat.min_le_left _ _
  · intro w s hw hlen
    have hlen2 : w < (strBytes s).length := hlen
    have hcell : renderCell w s = (strBytes s).take (w - 1) ++ ellipsisBytes := by
      unfold renderCell
      rw [if_pos hlen]
      unfold truncateStringB
      rw [if_neg (by omega), if_pos (by omega)]
      have ht : ((w : Int) - 1).toNat = w - 1 := by omega
      rw [ht]
      rfl
    refine ⟨hcell, ?_⟩
    rw [hcell]
    have hell : ellipsisBytes.length = 3 := rfl
    rw [List.length_append, List.length_take, hell]
    omega
  · intro w s hle
    unfold renderCell
    rw [if_neg (by omega)]
  · intro cfg oldCols r rest
    rfl

/-- Witness for C5 at a concrete column and a concrete overlong cell. -/
theorem columnWidth_bytes_wit :
    (8 ≤ colWidth 40 [[("a", Json.num 1)]] "a"
      ∧ colWidth 40 [[("a", Json.num 1)]] "a" ≤ 40)
    ∧ renderCell 8 "0123456789" = (strBytes "0123456789").take 7 ++ ellipsisBytes
    ∧ renderCell 8 "ok" = strBytes "ok" :=
  ⟨columnWidth_bytes.2.1 40 [[("a", Json.num 1)]] "a" (by decide),
   (columnWidth_bytes.2.2.1 8 "0123456789" (by decide) (by decide)).1,
   columnWidth_bytes.2.2.2.1 8 "ok" (by decide)⟩

/-- Counterexample for C5 as stated: a cell of forty-five two-byte
characters gets column width forty, is longer than the width, and is
rendered as its first thirty-nine bytes (nineteen and a half characters)
plus the ellipsis, not as its first thirty-nine visible characters plus
the ellipsis. -/
theorem columnWidth_chars_cex :
    colWidth 40 [[("k", Json.str (alphaRun 45))]] "k" = 40
    ∧ 40 < goLen (valStr [("k", Json.str (alphaRun 45))] "k")
    ∧ 40 < (valStr [("k", Json.str (alphaRun 45))] "k").data.length
    ∧ (renderJSONToTable DefaultConfig [[("k", Json.str (alphaRun 45))]] []).1 =
        [[strBytes "k"], [(strBytes (alphaRun 45)).take 39 ++ ellipsisBytes]]
    ∧ (strBytes (alphaRun 45)).take 39 ++ ellipsisBytes
        ≠ specCharCell 40 (valStr [[("k", Json.str (alphaRun 45))]].head! "k") := by
  exact ⟨by decide, by decide, by decide, by decide, by decide⟩

/-- Claim C6: the column sequence of a rendered table is the
lexicographically sorted key set of the first row alone, whatever the
later rows hold. -/
theorem columnsFromFirstRow :
    ∀ (r : RowMap) (rest rest2 : List RowMap),
      (List.Sorted goStrLe (colsOf (r :: rest))
      ∧ (colsOf (r :: rest)).Perm (r.map (fun p => p.1))
      ∧ colsOf (r :: rest) = colsOf (r :: rest2))
      ∧ ((r.map (fun p => p.1)).Nodup → (colsOf (r :: rest)).Nodup) := by
  intro r rest rest2
  haveI : IsTotal String goStrLe := ⟨fun a b => listLeB_total _ _⟩
  haveI : IsTrans String goStrLe := ⟨fun a b c hab hbc => listLeB_trans _ _ _ hab hbc⟩
  refine ⟨⟨?_, ?_, rfl⟩, ?_⟩
  · exact List.sorted_insertionSort _ _
  · exact List.perm_insertionSort _ _
  · intro hnd
    exact ((List.perm_insertionSort goStrLe _).nodup_iff).mpr hnd

/-- Witness for C6 at a concrete two-row table whose second row has a
different key set. -/
theorem columnsFromFirstRow_wit :
    (colsOf [[("b", Json.num 1), ("a", Json.num 2)], [("z", Json.null)]]).Nodup
    ∧ colsOf [[("b", Json.num 1), ("a", Json.num 2)], [("z", Json.null)]]
        = colsOf [[("b", Json.num 1), ("a", Json.num 2)]] :=
  ⟨(columnsFromFirstRow [("b", Json.num 1), ("a", Json.num 2)]
      [[("z", Json.null)]] []).2 (by decide),
   (columnsFromFirstRow [("b", Json.num 1), ("a", Json.num 2)]
      [[("z", Json.null)]] []).1.2.2⟩

/-- Claim C8 amended: the detail pane of a selected row lists every key
of that row (normalised against nothing, in particular not against the
first-row column set) in sorted order, each value independently cut at
two hundred bytes plus an ellipsis when longer.  The cut is at two
hundred bytes, not two hundred characters (see the counterexample). -/
theorem detailProjection_bytes :
    ∀ (row : RowMap),
      ((detailLines row).map (fun p => p.1) = sortStrings (row.map (fun p => p.1))
      ∧ List.Sorted goStrLe ((detailLines row).map (fun p => p.1))
      ∧ ((detailLines row).map (fun p => p.1)).Perm (row.map (fun p => p.1))
      ∧ (∀ p ∈ detailLines row, p.2 = detailValBytes (valStr row p.1)))
      ∧ (∀ (data : List RowMap) (i : Nat), 1 ≤ i → i ≤ data.length →
          updateDetailViewS data i =
            DetailView.rowDetail i data.length (detailLines (data.getD (i - 1) []))) := by
  intro row
  haveI : IsTotal String goStrLe := ⟨fun a b => listLeB_total _ _⟩
  haveI : IsTrans String goStrLe := ⟨fun a b c hab hbc => listLeB_trans _ _ _ hab hbc⟩
  have hkeys : (detailLines row).map (fun p => p.1)
      = sortStrings (row.map (fun p => p.1)) := by
    unfold detailLines
    exact map_fst_pairs _ _
  refine ⟨⟨hkeys, ?_, ?_, ?_⟩, ?_⟩
  · rw [hkeys]
    exact List.sorted_insertionSort _ _
  · rw [hkeys]
    exact List.perm_insertionSort _ _
  · intro p hp
    unfold detailLines at hp
    rcases List.mem_map.mp hp with ⟨k, hk, rfl⟩
    rfl
  · intro data i hi1 hi2
    unfold updateDetailViewS
    rw [if_neg (by omega)]

/-- Witness for C8 at a concrete one-row table. -/
theorem detailProjection_bytes_wit :
    updateDetailViewS [[("k", Json.num 5)]] 1 =
      DetailView.rowDetail 1 1 (detailLines [("k", Json.num 5)]) :=
  (detailProjection_bytes []).2 [[("k", Json.num 5)]] 1 (by decide) (by decide)

set_option maxRecDepth 8000 in
/-- Counterexample for C8 as stated: a value of one hundred and fifty
two-byte characters is within two hundred characters, yet it is cut at
two hundred bytes, so the rendered value differs from the value
truncated at two hundred characters (which would be the whole value). -/
theorem detailTruncation_chars_cex :
    detailLines [("k", Json.str (alphaRun 150))] =
      [("k", (strBytes (alphaRun 150)).take 200 ++ ellipsisBytes)]
    ∧ (alphaRun 150).data.length ≤ 200
    ∧ (strBytes (alphaRun 150)).take 200 ++ ellipsisBytes
        ≠ specCharDetail (alphaRun 150) := by
  exact ⟨by decide, by decide, by decide⟩

end Dbx
